import Mathlib

/-!
Verification of the CCCapsNet model code (model.py): the compositional
embedding layer and the Model wiring (embedding, bidirectional GRU folding,
pooling, capsule or linear classification head).

Tensors are embedded shallowly as nested lists of rationals.  The
exponential used by softmax, the gumbel noise source, the GRU, the external
CapsuleLinear forward and the square root used by the norm are abstract
function parameters: the theorems below hold for every choice of them
(with explicit positivity hypotheses where the source relies on them).
-/

/-- A vector: one dimensional tensor of rationals. -/
abbrev Vec : Type := List ℚ

/-- A matrix: two dimensional tensor. -/
abbrev Mat : Type := List Vec

/-- A three dimensional tensor. -/
abbrev T3 : Type := List Mat

/-- Elementwise sum of two vectors (torch `+` on equal shapes). -/
def vadd (a b : Vec) : Vec := List.zipWith (· + ·) a b

/-- Scale a vector by a rational. -/
def vscale (c : ℚ) (v : Vec) : Vec := v.map (fun x => c * x)

/-- Sum of a list of vectors of dimension `d` (torch `sum` over a stack). -/
def vsum (l : List Vec) (d : ℕ) : Vec := l.foldr vadd (List.replicate d 0)

/-- Dot product of two vectors. -/
def dot (a b : Vec) : ℚ := (List.zipWith (· * ·) a b).sum

/-- Sum of squares of the entries of a vector. -/
def sumSq (v : Vec) : ℚ := (v.map (fun x => x * x)).sum

/-- Row-vector times matrix: `v @ m`, result of dimension `d`. -/
def vecMatMul (v : Vec) (m : Mat) (d : ℕ) : Vec :=
  vsum (List.zipWith vscale v m) d

/-- Softmax of a vector, with `e` standing for the exponential function. -/
def softmaxList (e : ℚ → ℚ) (v : Vec) : Vec :=
  v.map (fun x => e x / (v.map e).sum)

/-- Denominator of the `dim = -2` softmax at column `w`: the sum of `e`
over column `w` of the matrix. -/
def colDenom (e : ℚ → ℚ) (m : Mat) (w : ℕ) : ℚ :=
  (m.map (fun row => e (row.getD w 0))).sum

/-- `F.softmax(code, dim=-2)` on one matrix of shape
(num_codebook, num_codeword): each entry is normalized over its column,
i.e. across the codebook axis, exactly as the source does. -/
def softmaxNeg2 (e : ℚ → ℚ) (m : Mat) : Mat :=
  m.map (fun row => row.enum.map (fun p => e p.2 / colDenom e m p.1))

/-- Index of the first maximal entry of a list (torch `argmax` over the
last dimension). -/
def listArgmax : List ℚ → ℕ
  | [] => 0
  | x :: tl =>
    if tl = [] then 0
    else if x < tl.getD (listArgmax tl) 0 then listArgmax tl + 1 else 0

/-- `view(rows, -1, ·)`-style regrouping of a flat list into `rows` groups
of `cols` consecutive elements. -/
def reshape2 (rows cols : ℕ) (l : List Vec) : T3 :=
  (List.range rows).map (fun i => (List.range cols).map (fun j => l.getD (i * cols + j) []))

/-- `view(-1, k)` on a vector: split into `v.length / k` chunks of `k`. -/
def chunkVec (k : ℕ) (v : Vec) : Mat :=
  (List.range (v.length / k)).map (fun i => (List.range k).map (fun j => v.getD (i * k + j) 0))

-- Basic lemmas about the vector operations.

theorem vadd_length (a b : Vec) : (vadd a b).length = min a.length b.length := by
  simp [vadd, List.length_zipWith]

theorem vsum_length (l : List Vec) (d : ℕ) (h : ∀ v ∈ l, List.length v = d) :
    (vsum l d).length = d := by
  induction l with
  | nil => simp [vsum]
  | cons a tl ih =>
    have ha : List.length a = d := h a (by simp)
    have htl : ∀ v ∈ tl, List.length v = d := fun v hv => h v (by simp [hv])
    simp only [vsum, List.foldr_cons] at *
    rw [vadd_length, ih htl, ha, min_self]

theorem vscale_length (c : ℚ) (v : Vec) : (vscale c v).length = v.length := by
  simp [vscale]

theorem getD_vadd (a b : Vec) (i : ℕ) (ha : i < a.length) (hb : i < b.length) :
    (vadd a b).getD i 0 = a.getD i 0 + b.getD i 0 := by
  have hlen : i < (vadd a b).length := by
    rw [vadd_length]; exact lt_min ha hb
  rw [List.getD_eq_getElem _ _ hlen, List.getD_eq_getElem _ _ ha, List.getD_eq_getElem _ _ hb]
  simp [vadd]

theorem getD_vscale (c : ℚ) (v : Vec) (i : ℕ) :
    (vscale c v).getD i 0 = c * v.getD i 0 := by
  by_cases h : i < v.length
  · have h2 : i < (vscale c v).length := by rw [vscale_length]; exact h
    rw [List.getD_eq_getElem _ _ h2, List.getD_eq_getElem _ _ h]
    simp [vscale]
  · have h2 : ¬ i < (vscale c v).length := by rw [vscale_length]; exact h
    rw [List.getD_eq_default _ _ (le_of_not_lt h), List.getD_eq_default _ _ (le_of_not_lt h2)]
    simp

theorem getD_mem {α : Type} (l : List α) (n : ℕ) (d : α) (h : n < l.length) :
    l.getD n d ∈ l := by
  rw [List.getD_eq_getElem _ _ h]
  exact List.getElem_mem h

theorem listArgmax_lt (l : List ℚ) (h : l ≠ []) : listArgmax l < l.length := by
  induction l with
  | nil => simp at h
  | cons x tl ih =>
    by_cases htl : tl = []
    · subst htl; simp [listArgmax]
    · simp only [listArgmax, if_neg htl]
      by_cases hlt : x < tl.getD (listArgmax tl) 0
      · rw [if_pos hlt]
        exact Nat.succ_lt_succ (ih htl)
      · rw [if_neg hlt]
        simp

theorem vscale_eq_nil (c : ℚ) (l : Vec) : vscale c l = [] ↔ l = [] := by
  simp [vscale]

/-- Scaling by a positive constant does not change the argmax (so taking the
argmax of the sum of samples and of their average agree). -/
theorem listArgmax_vscale (c : ℚ) (hc : 0 < c) (l : List ℚ) :
    listArgmax (vscale c l) = listArgmax l := by
  induction l with
  | nil => rfl
  | cons x tl ih =>
    show listArgmax (c * x :: vscale c tl) = _
    by_cases htl : tl = []
    · subst htl; rfl
    · have hvtl : vscale c tl ≠ [] := by
        simp [vscale_eq_nil, htl]
      simp only [listArgmax, if_neg htl, if_neg hvtl, ih, getD_vscale]
      simp [mul_lt_mul_left hc]

theorem reshape2_length (r c : ℕ) (l : List Vec) : (reshape2 r c l).length = r := by
  simp [reshape2]

theorem reshape2_mem_length (r c : ℕ) (l : List Vec) :
    ∀ m ∈ reshape2 r c l, List.length m = c := by
  intro m hm
  simp only [reshape2, List.mem_map, List.mem_range] at hm
  obtain ⟨i, _, rfl⟩ := hm
  simp

theorem reshape2_mem_mem (r c : ℕ) (l : List Vec) :
    ∀ m ∈ reshape2 r c l, ∀ v ∈ m, ∃ k, v = l.getD k [] := by
  intro m hm v hv
  simp only [reshape2, List.mem_map, List.mem_range] at hm
  obtain ⟨i, _, rfl⟩ := hm
  simp only [List.mem_map, List.mem_range] at hv
  obtain ⟨j, _, rfl⟩ := hv
  exact ⟨i * c + j, rfl⟩

theorem reshape2_getD (r c : ℕ) (l : List Vec) (i j : ℕ) (hi : i < r) (hj : j < c) :
    ((reshape2 r c l).getD i []).getD j [] = l.getD (i * c + j) [] := by
  have h1 : (reshape2 r c l).getD i [] = (List.range c).map (fun j => l.getD (i * c + j) []) := by
    have : i < (reshape2 r c l).length := by rw [reshape2_length]; exact hi
    rw [List.getD_eq_getElem _ _ this]
    simp [reshape2]
  rw [h1]
  have : j < ((List.range c).map (fun j => l.getD (i * c + j) [])).length := by simp [hj]
  rw [List.getD_eq_getElem _ _ this]
  simp

theorem flatten_length_const {α : Type} (l : List (List α)) (w : ℕ)
    (h : ∀ r ∈ l, List.length r = w) : l.flatten.length = l.length * w := by
  induction l with
  | nil => simp
  | cons a tl ih =>
    have ha := h a (by simp)
    have htl : ∀ r ∈ tl, List.length r = w := fun r hr => h r (by simp [hr])
    simp [ha, ih htl, Nat.succ_mul, Nat.add_comm]

theorem getD_vsum (l : List Vec) (d i : ℕ) (hi : i < d)
    (h : ∀ v ∈ l, List.length v = d) :
    (vsum l d).getD i 0 = (l.map (fun v => v.getD i 0)).sum := by
  induction l with
  | nil => simp [vsum, List.getD_eq_getElem?_getD, List.getElem?_replicate, hi]
  | cons a tl ih =>
    have ha : List.length a = d := h a (by simp)
    have htl : ∀ v ∈ tl, List.length v = d := fun v hv => h v (by simp [hv])
    have hlen : (vsum tl d).length = d := vsum_length tl d htl
    simp only [vsum, List.foldr_cons] at *
    rw [getD_vadd _ _ _ (by omega) (by omega), ih htl, List.map_cons, List.sum_cons]

-- ---------------------------------------------------------------------------
-- CompositionalEmbedding (model.py, lines 10-74)
-- ---------------------------------------------------------------------------

/-- Runtime state of a `CompositionalEmbedding` module: the configuration
fields stored by `__init__` together with the two parameter tensors
`code : (num_embeddings, num_codebook, num_codeword)` and
`codebook : (num_codebook, num_codeword, embedding_dim)`. -/
structure CompositionalEmbedding where
  num_embeddings : ℕ
  embedding_dim : ℕ
  num_codebook : ℕ
  num_codeword : ℕ
  weighted : Bool
  code : T3
  codebook : T3
deriving DecidableEq

/-- The parameter tensors have exactly the shapes recorded in the fields
(as guaranteed by `__init__`). -/
def CompositionalEmbedding.wf (m : CompositionalEmbedding) : Prop :=
  m.code.length = m.num_embeddings ∧
  (∀ cm ∈ m.code, List.length cm = m.num_codebook ∧
    ∀ row ∈ cm, List.length row = m.num_codeword) ∧
  m.codebook.length = m.num_codebook ∧
  (∀ bm ∈ m.codebook, List.length bm = m.num_codeword ∧
    ∀ row ∈ bm, List.length row = m.embedding_dim)

instance (m : CompositionalEmbedding) : Decidable m.wf := by
  unfold CompositionalEmbedding.wf; infer_instance

/-- `out.view(batch_size, -1, d)` on a flat list of `d`-vectors: fails when
the batch is empty, when `d = 0` (the inferred `-1` would be ambiguous) or
when the element count is not divisible by the batch size. -/
def viewBatch (batch d : ℕ) (flat : List Vec) : Option T3 :=
  if batch ≠ 0 ∧ d ≠ 0 ∧ batch ∣ flat.length then
    some (reshape2 batch (flat.length / batch) flat)
  else none

/-- One batched-matrix-multiply-and-sum step of the weighted path:
`(code[:, :, None, :] @ codebook[None, :, :, :]).squeeze(dim=-2).sum(dim=1)`
restricted to a single token, whose normalized code is the matrix `cm`. -/
def bmmSum (codebook : T3) (cm : Mat) (d : ℕ) : Vec :=
  vsum (cm.enum.map (fun p => vecMatMul p.2 (codebook.getD p.1 []) d)) d

/-- One draw of `F.gumbel_softmax(code)` (tau = 1, hard = False, dim = -1)
restricted to the logits row of token `t` and codebook `b`; `G` supplies the
sampled gumbel noise for draw `i`. -/
def gumbelSample (e : ℚ → ℚ) (G : ℕ → ℕ → ℕ → ℕ → ℚ) (i t b : ℕ) (logits : Vec) : Vec :=
  softmaxList e (logits.enum.map (fun p => p.2 + G i t b p.1))

/-- `CompositionalEmbedding.forward` (model.py lines 53-71).  `e` is the
exponential used by the softmaxes and `G` the gumbel noise source used by
the unweighted path; `iteration` is the sampling count (the source default
is 10).  Error conditions of the tensor operations are returned as `none`:
an out-of-range token id (`index_select`); in the unweighted path an empty
sample stack (`iteration = 0`, `torch.stack` of an empty list, or
`num_codebook = 0`) and an empty reduction dimension for `argmax`
(`num_codeword = 0`); and in the final `view` an empty batch, a zero
`embedding_dim` or a total size not divisible by the batch size. -/
def CompositionalEmbedding.forward (e : ℚ → ℚ) (G : ℕ → ℕ → ℕ → ℕ → ℚ)
    (m : CompositionalEmbedding) (input : List (List ℕ)) (iteration : ℕ) : Option T3 :=
  let batch_size := input.length
  let index := input.flatten
  if ¬ (∀ t ∈ index, t < m.num_embeddings) then none
  else
    let code := index.map (fun t => m.code.getD t [])
    if m.weighted then
      let codeW := code.map (softmaxNeg2 e)
      viewBatch batch_size m.embedding_dim
        (codeW.map (fun cm => bmmSum m.codebook cm m.embedding_dim))
    else
      if iteration = 0 ∨ m.num_codebook = 0 ∨ m.num_codeword = 0 then none
      else
        let chosen := (List.range index.length).map (fun t =>
          ((code.getD t []).enum).map (fun p =>
            listArgmax (vsum ((List.range iteration).map
              (fun i => gumbelSample e G i t p.1 p.2)) m.num_codeword)))
        viewBatch batch_size m.embedding_dim
          ((List.range index.length).map (fun t =>
            vsum ((List.range m.num_codebook).map (fun b =>
              (m.codebook.getD b []).getD ((chosen.getD t []).getD b 0) []))
              m.embedding_dim))

/-- State-passing version of `forward`: the module state that the call
leaves behind, paired with the result.  The source assigns no attribute in
`forward`, so the state is passed through unchanged. -/
def CompositionalEmbedding.forwardS (e : ℚ → ℚ) (G : ℕ → ℕ → ℕ → ℕ → ℚ)
    (m : CompositionalEmbedding) (input : List (List ℕ)) (iteration : ℕ) :
    Option T3 × CompositionalEmbedding :=
  (CompositionalEmbedding.forward e G m input iteration, m)

-- ---------------------------------------------------------------------------
-- Model (model.py, lines 77-121)
-- ---------------------------------------------------------------------------

/-- The embedding sub-module selected at construction: a
`CompositionalEmbedding` (for embedding_type cwc or cc) or a plain
`nn.Embedding` lookup table of shape (vocab_size, embedding_size). -/
inductive Emb where
  | comp (ce : CompositionalEmbedding)
  | plain (table : Mat)
deriving DecidableEq

/-- The classifier sub-module selected at construction: a `CapsuleLinear`
(external library; its routing type, capsule count `hidden_size //
in_length` and iteration count are recorded) or an `nn.Linear` with
`in_features` inputs and one weight row per class (bias = False). -/
inductive Classifier where
  | capsule (routing : String) (in_capsules num_iterations : ℕ)
  | linear (in_features : ℕ) (weight : Mat)
deriving DecidableEq

/-- State of a constructed `Model` (the fields `__init__` stores). -/
structure Model where
  hidden_size : ℕ
  in_length : ℕ
  out_length : ℕ
  num_class : ℕ
  classifier_type : String
  embedding : Emb
  classifier : Classifier
deriving DecidableEq

/-- `Model.__init__` (model.py lines 78-106).  `cpow n k` stands for the
external `math.ceil(math.pow(n, 1 / k))` used when `num_codeword` is `None`
(only meaningful for `k ≠ 0`); `code`, `codebook`, `table` and `linW` are
the randomly initialized parameter tensors of the selected sub-modules.
Failures (`none`) mirror the source: `1 / num_codebook` divides by zero
when a compositional embedding is selected with `num_codeword = None` and
`num_codebook = 0`; `nn.GRU` rejects `hidden_size = 0`; and
`hidden_size // in_length` divides by zero when a capsule classifier is
selected with `in_length = 0`.  Note that an unrecognized `embedding_type`
falls through to the plain embedding and an unrecognized `classifier_type`
or `routing_type` falls through to the linear classifier. -/
def Model.chooseEmb (cpow : ℕ → ℕ → ℕ)
    (vocab_size embedding_size num_codebook : ℕ) (num_codeword : Option ℕ)
    (embedding_type : String) (code codebook : T3) (table : Mat) : Option Emb :=
  if embedding_type = "cwc" ∨ embedding_type = "cc" then
    match num_codeword with
    | some w => some (Emb.comp
        ⟨vocab_size, embedding_size, num_codebook, w, embedding_type = "cwc", code, codebook⟩)
    | none =>
      if num_codebook = 0 then none
      else some (Emb.comp
        ⟨vocab_size, embedding_size, num_codebook, cpow vocab_size num_codebook,
          embedding_type = "cwc", code, codebook⟩)
  else some (Emb.plain table)

def Model.chooseCls (hidden_size in_length num_iterations : ℕ)
    (routing_type classifier_type : String) (linW : Mat) : Option Classifier :=
  if classifier_type = "capsule" ∧ routing_type = "k_means" then
    if in_length = 0 then none
    else some (Classifier.capsule "k_means" (hidden_size / in_length) num_iterations)
  else if classifier_type = "capsule" ∧ routing_type = "dynamic" then
    if in_length = 0 then none
    else some (Classifier.capsule "dynamic" (hidden_size / in_length) num_iterations)
  else some (Classifier.linear hidden_size linW)

def Model.init (cpow : ℕ → ℕ → ℕ)
    (vocab_size embedding_size num_codebook : ℕ) (num_codeword : Option ℕ)
    (hidden_size in_length out_length num_class : ℕ)
    (routing_type embedding_type classifier_type : String) (num_iterations : ℕ)
    (code codebook : T3) (table linW : Mat) : Option Model :=
  (Model.chooseEmb cpow vocab_size embedding_size num_codebook num_codeword
      embedding_type code codebook table).bind fun emb =>
    if hidden_size = 0 then none
    else
      (Model.chooseCls hidden_size in_length num_iterations
          routing_type classifier_type linW).map fun cls =>
        ⟨hidden_size, in_length, out_length, num_class, classifier_type, emb, cls⟩

/-- `self.embedding(x)`: forward of the selected embedding sub-module.  A
compositional embedding runs with the default `iteration = 10`; the plain
lookup table rejects out-of-range token ids. -/
def Emb.fwd (e : ℚ → ℚ) (G : ℕ → ℕ → ℕ → ℕ → ℚ) :
    Emb → List (List ℕ) → Option T3
  | Emb.comp ce, x => ce.forward e G x 10
  | Emb.plain table, x =>
    if ¬ (∀ t ∈ x.flatten, t < table.length) then none
    else some (x.map (fun row => row.map (fun t => table.getD t [])))

/-- `out[:, :, :hidden_size] + out[:, :, hidden_size:]` on one sequence of
GRU outputs: sum the forward and backward hidden halves elementwise. -/
def foldBi (h : ℕ) (seq : Mat) : Mat :=
  seq.map (fun row => vadd (row.take h) (row.drop h))

/-- `out.mean(dim=1)` on one folded sequence of `h`-vectors. -/
def meanPool (h : ℕ) (seq : Mat) : Vec :=
  vscale (1 / (seq.length : ℚ)) (vsum seq h)

/-- Lines 112-113 of model.py: fold the bidirectional halves and mean-pool
over the time dimension, for every example of the batch. -/
def Model.pool (h : ℕ) (gruOut : T3) : Mat :=
  gruOut.map (fun seq => meanPool h (foldBi h seq))

/-- `Model.forward` (model.py lines 108-121).  `gru` is the external
2-layer bidirectional `nn.GRU` (its output must have width
`2 * hidden_size`; this is a shape hypothesis of the theorems, not baked
in); `capsFwd` is the external `CapsuleLinear` forward, mapping a set of
input capsules to `num_class` output pose vectors; `sq` is the square root
used by `norm(dim=-1)`.  `none` mirrors the runtime errors of the two
`view` calls (ambiguous `-1` on an empty batch, or `in_length` not dividing
the pooled width) and of a shape mismatch in `nn.Linear`. -/
def Model.forward (sq : ℚ → ℚ) (e : ℚ → ℚ) (G : ℕ → ℕ → ℕ → ℕ → ℚ)
    (gru : T3 → T3) (capsFwd : Mat → Mat) (M : Model) (x : List (List ℕ)) : Option Mat :=
  (Emb.fwd e G M.embedding x).bind fun embed =>
    let pooled := Model.pool M.hidden_size (gru embed)
    if M.classifier_type = "capsule" then
      if M.in_length ≠ 0 ∧ M.in_length ∣ M.hidden_size ∧ pooled.length ≠ 0 then
        match M.classifier with
        | Classifier.capsule _ _ _ =>
          some (pooled.map (fun v =>
            (capsFwd (chunkVec M.in_length v)).map (fun p => sq (sumSq p))))
        | Classifier.linear inF w =>
          if M.in_length = inF then
            some (pooled.map (fun v =>
              (chunkVec M.in_length v).map (fun r => sq (sumSq (w.map (fun wr => dot wr r))))))
          else none
      else none
    else
      if pooled.length ≠ 0 then
        match M.classifier with
        | Classifier.capsule _ _ _ => none
        | Classifier.linear inF w =>
          if ∀ v ∈ pooled, List.length v = inF then
            some (pooled.map (fun v => w.map (fun wr => dot wr v)))
          else none
      else none

/-- State-passing version of `Model.forward`: the model state left behind
by a call, paired with the result.  The source assigns no attribute in
`forward`, so the state is passed through unchanged. -/
def Model.forwardS (sq : ℚ → ℚ) (e : ℚ → ℚ) (G : ℕ → ℕ → ℕ → ℕ → ℚ)
    (gru : T3 → T3) (capsFwd : Mat → Mat) (M : Model) (x : List (List ℕ)) :
    Option Mat × Model :=
  (Model.forward sq e G gru capsFwd M x, M)

-- ---------------------------------------------------------------------------
-- Construction-time behaviour of CompositionalEmbedding.__init__
-- ---------------------------------------------------------------------------

/-- The configuration a successful `CompositionalEmbedding.__init__` stores
(integer-valued, so that negative arguments can be expressed). -/
structure CompEmbConfig where
  num_embeddings : ℤ
  embedding_dim : ℤ
  num_codebook : ℤ
  num_codeword : ℤ
deriving DecidableEq

/-- `CompositionalEmbedding.__init__` (model.py lines 38-51).  `cpow n k`
stands for the external `math.ceil(math.pow(n, 1 / k))` (meaningful for
`k ≠ 0`).  Failures mirror the source: `1 / num_codebook` raises
ZeroDivisionError when `num_codebook = 0` and `num_codeword` is `None`;
`math.pow` rejects a negative base with a fractional exponent; and
`torch.Tensor` rejects any negative dimension.  Zero-sized dimensions are
accepted by `torch.Tensor` and `nn.init.normal_`, so they construct
successfully. -/
def CompositionalEmbedding.init (cpow : ℤ → ℤ → ℤ)
    (num_embeddings embedding_dim num_codebook : ℤ) (num_codeword : Option ℤ) :
    Option CompEmbConfig :=
  match num_codeword with
  | none =>
    if num_codebook = 0 then none
    else
      if num_embeddings < 0 ∨ num_codebook < 0 ∨ cpow num_embeddings num_codebook < 0 ∨
          embedding_dim < 0 then none
      else some ⟨num_embeddings, embedding_dim, num_codebook, cpow num_embeddings num_codebook⟩
  | some w =>
    if num_embeddings < 0 ∨ num_codebook < 0 ∨ w < 0 ∨ embedding_dim < 0 then none
    else some ⟨num_embeddings, embedding_dim, num_codebook, w⟩

-- Further membership lemmas used by the shape theorems.

theorem mem_zipWith {α β γ : Type} (f : α → β → γ) :
    ∀ (as : List α) (bs : List β), ∀ c ∈ List.zipWith f as bs,
      ∃ a ∈ as, ∃ b ∈ bs, c = f a b := by
  intro as
  induction as with
  | nil => intro bs c hc; simp at hc
  | cons a tas ih =>
    intro bs c hc
    cases bs with
    | nil => simp at hc
    | cons b tbs =>
      simp only [List.zipWith_cons_cons, List.mem_cons] at hc
      rcases hc with rfl | hc
      · exact ⟨a, by simp, b, by simp, rfl⟩
      · obtain ⟨a2, ha2, b2, hb2, rfl⟩ := ih tbs c hc
        exact ⟨a2, by simp [ha2], b2, by simp [hb2], rfl⟩

theorem reshape2_mem_mem_of_le (r c : ℕ) (l : List Vec) (hlen : r * c ≤ l.length) :
    ∀ m ∈ reshape2 r c l, ∀ v ∈ m, v ∈ l := by
  intro m hm v hv
  simp only [reshape2, List.mem_map, List.mem_range] at hm
  obtain ⟨i, hi, rfl⟩ := hm
  simp only [List.mem_map, List.mem_range] at hv
  obtain ⟨j, hj, rfl⟩ := hv
  have hk : i * c + j < r * c := by
    calc i * c + j < i * c + c := by omega
    _ = (i + 1) * c := by ring
    _ ≤ r * c := Nat.mul_le_mul_right c hi
  exact getD_mem _ _ _ (lt_of_lt_of_le hk hlen)

theorem vecMatMul_length (v : Vec) (m : Mat) (d : ℕ)
    (h : ∀ row ∈ m, List.length row = d) : (vecMatMul v m d).length = d := by
  apply vsum_length
  intro u hu
  obtain ⟨a, _, b, hb, rfl⟩ := mem_zipWith vscale v m u hu
  rw [vscale_length]
  exact h b hb

/-- Rows selected from a matrix by `getD` all have length `d` when every
actual row does (the default `[]` case cannot arise below a length bound,
and out-of-range `getD` is handled by each caller separately). -/
theorem getD_row_length (m : Mat) (d b : ℕ) (hb : b < m.length)
    (h : ∀ row ∈ m, List.length row = d) : List.length (m.getD b []) = d :=
  h _ (getD_mem m b [] hb)

theorem bmmSum_length (codebook : T3) (cm : Mat) (d : ℕ)
    (h : ∀ bm ∈ codebook, ∀ row ∈ bm, List.length row = d) :
    (bmmSum codebook cm d).length = d := by
  apply vsum_length
  intro u hu
  simp only [bmmSum, List.mem_map] at hu
  obtain ⟨p, _, rfl⟩ := hu
  apply vecMatMul_length
  intro row hrow
  by_cases hp : p.1 < codebook.length
  · exact h _ (getD_mem codebook p.1 [] hp) row hrow
  · rw [List.getD_eq_default _ _ (le_of_not_lt hp)] at hrow
    simp at hrow

-- ---------------------------------------------------------------------------
-- Claim theorems
-- ---------------------------------------------------------------------------

/-- Claim C1 (evaluation of the code at the failing input).  The claim and
the comment in the source say that in weighted mode the softmax makes each
per-codebook codeword weight row a probability distribution over the
codewords.  The source normalizes over `dim = -2`, the codebook axis, not
the codeword axis: for a token whose code matrix has one codebook and two
codewords with logits `[[0, 0]]`, every normalized weight is 1 (each
column has a single entry), so the codeword weights of the codebook sum to
2, not 1.  This holds for every positive exponential `e` (the real
exponential included). -/
theorem c1_softmax_wrong_axis (e : ℚ → ℚ) (he : ∀ x, 0 < e x) :
    (softmaxNeg2 e [[0, 0]]).getD 0 [] = [1, 1] ∧
    ((softmaxNeg2 e [[0, 0]]).getD 0 []).sum = 2 := by
  have h0 : e 0 ≠ 0 := ne_of_gt (he 0)
  have hrow : (softmaxNeg2 e [[0, 0]]).getD 0 [] = [1, 1] := by
    show ([(0, (0:ℚ)), (1, (0:ℚ))].map (fun p => e p.2 / colDenom e [[0, 0]] p.1)) = [1, 1]
    simp [colDenom, div_self h0]
  exact ⟨hrow, by rw [hrow]; norm_num⟩

theorem c1_softmax_wrong_axis_witness :
    (softmaxNeg2 (fun _ => (1 : ℚ)) [[0, 0]]).getD 0 [] = [1, 1] ∧
    ((softmaxNeg2 (fun _ => (1 : ℚ)) [[0, 0]]).getD 0 []).sum = 2 :=
  c1_softmax_wrong_axis (fun _ => (1 : ℚ)) (fun _ => one_pos)

/-- Claim C7 counterexample.  The claim says a non-positive
`embedding_dim` fails at construction time; but `embedding_dim = 0` gives
zero-sized parameter tensors, which `torch.Tensor` and `nn.init.normal_`
accept, so construction succeeds. -/
theorem c7_counterexample :
    CompositionalEmbedding.init (fun _ _ => 1) 10 0 2 (some 3) =
      some ⟨10, 0, 2, 3⟩ := by decide

/-- Claim C7, amended: a NEGATIVE `embedding_dim` or `num_codebook` fails
synchronously at construction (negative tensor dimension), and
`num_codebook = 0` with an unspecified `num_codeword` also fails
(`1 / num_codebook` divides by zero); `embedding_dim = 0` constructs. -/
theorem c7_negative_dims_fail (cpow : ℤ → ℤ → ℤ) (n d k : ℤ) (cw : Option ℤ)
    (h : d < 0 ∨ k < 0 ∨ (k = 0 ∧ cw = none)) :
    CompositionalEmbedding.init cpow n d k cw = none := by
  unfold CompositionalEmbedding.init
  rcases cw with _ | w
  · by_cases hk : k = 0
    · rw [if_pos hk]
    · have hcond : n < 0 ∨ k < 0 ∨ cpow n k < 0 ∨ d < 0 := by tauto
      rw [if_neg hk, if_pos hcond]
  · have hcond : n < 0 ∨ k < 0 ∨ w < 0 ∨ d < 0 := by
      rcases h with h | h | ⟨_, h2⟩
      · tauto
      · tauto
      · simp at h2
    simp [hcond]

theorem c7_negative_dims_fail_witness :
    CompositionalEmbedding.init (fun _ _ => 1) 10 (-1) 2 (some 3) = none :=
  c7_negative_dims_fail (fun _ _ => 1) 10 (-1) 2 (some 3) (Or.inl (by norm_num))

/-- Claim C8: the weighted forward path is deterministic given the
parameters: it does not read the gumbel noise source nor the sampling
iteration count, so two invocations (with arbitrary, different noise and
iteration count) return identical outputs. -/
theorem c8_weighted_deterministic (e : ℚ → ℚ) (G G2 : ℕ → ℕ → ℕ → ℕ → ℚ)
    (m : CompositionalEmbedding) (x : List (List ℕ)) (n n2 : ℕ)
    (hw : m.weighted = true) :
    CompositionalEmbedding.forward e G m x n =
    CompositionalEmbedding.forward e G2 m x n2 := by
  unfold CompositionalEmbedding.forward
  simp only [hw, if_true]

theorem c8_weighted_deterministic_witness :
    (⟨1, 1, 1, 1, true, [[[1]]], [[[2]]]⟩ : CompositionalEmbedding).weighted = true ∧
    CompositionalEmbedding.forward (fun _ => 1) (fun _ _ _ _ => 0)
        ⟨1, 1, 1, 1, true, [[[1]]], [[[2]]]⟩ [[0]] 10 =
      CompositionalEmbedding.forward (fun _ => 1) (fun _ _ _ _ => 5)
        ⟨1, 1, 1, 1, true, [[[1]]], [[[2]]]⟩ [[0]] 3 :=
  ⟨rfl, c8_weighted_deterministic (fun _ => 1) (fun _ _ _ _ => 0) (fun _ _ _ _ => 5)
    ⟨1, 1, 1, 1, true, [[[1]]], [[[2]]]⟩ [[0]] 10 3 rfl⟩

/-- Claim C9: forward passes have no side effects: the state-passing
versions of `CompositionalEmbedding.forward` and `Model.forward` return
the module state unchanged (the source assigns no attribute during a
forward pass; all intermediate state is local). -/
theorem c9_forward_frame (sq e : ℚ → ℚ) (G : ℕ → ℕ → ℕ → ℕ → ℚ)
    (gru : T3 → T3) (capsFwd : Mat → Mat) (m : CompositionalEmbedding)
    (M : Model) (x : List (List ℕ)) (n : ℕ) :
    (CompositionalEmbedding.forwardS e G m x n).2 = m ∧
    (Model.forwardS sq e G gru capsFwd M x).2 = M :=
  ⟨rfl, rfl⟩

/-- Claim C10: unrecognized variant strings are never rejected: any
`embedding_type` other than cwc and cc silently selects the plain lookup
embedding, and any `classifier_type` other than capsule (or capsule with a
routing type outside k_means and dynamic) silently selects the linear
classifier; construction succeeds with no error.  (`hidden_size ≠ 0` only
avoids the unrelated `nn.GRU` rejection of a zero hidden size.) -/
theorem c10_unrecognized_strings_fall_through (cpow : ℕ → ℕ → ℕ)
    (vocab es nb : ℕ) (cw : Option ℕ) (hs il ol nc ni : ℕ)
    (rt et ct : String) (code codebook : T3) (table linW : Mat)
    (bet : et ≠ "cwc" ∧ et ≠ "cc")
    (hct : ct ≠ "capsule" ∨ (rt ≠ "k_means" ∧ rt ≠ "dynamic"))
    (hh : hs ≠ 0) :
    Model.init cpow vocab es nb cw hs il ol nc rt et ct ni code codebook table linW =
      some ⟨hs, il, ol, nc, ct, Emb.plain table, Classifier.linear hs linW⟩ := by
  have hemb : Model.chooseEmb cpow vocab es nb cw et code codebook table =
      some (Emb.plain table) := by
    unfold Model.chooseEmb
    rw [if_neg]
    simp [bet.1, bet.2]
  have hcls : Model.chooseCls hs il ni rt ct linW =
      some (Classifier.linear hs linW) := by
    unfold Model.chooseCls
    rcases hct with h | ⟨h1, h2⟩
    · rw [if_neg (by simp [h]), if_neg (by simp [h])]
    · rw [if_neg (by simp [h1]), if_neg (by simp [h2])]
  unfold Model.init
  rw [hemb]
  simp [hh, hcls]

theorem c10_unrecognized_strings_witness :
    Model.init (fun _ _ => 1) 10 8 2 (some 4) 16 4 4 3 "dyn" "wcw" "capsul" 3
        [] [] [[1]] [[1]] =
      some ⟨16, 4, 4, 3, "capsul", Emb.plain [[1]], Classifier.linear 16 [[1]]⟩ :=
  c10_unrecognized_strings_fall_through (fun _ _ => 1) 10 8 2 (some 4) 16 4 4 3 3
    "dyn" "wcw" "capsul" [] [] [[1]] [[1]]
    ⟨by decide, by decide⟩ (Or.inl (by decide)) (by decide)

/-- Claim C2 counterexample.  With a capsule classifier and
`hidden_size = 5`, `in_length = 2` (not divisible), `Model.__init__`
succeeds: `in_capsules` is silently floored to `5 // 2 = 2` and no error is
raised at build time, contradicting the claim that construction fails. -/
theorem c2_counterexample :
    (Model.init (fun _ _ => 1) 10 8 2 (some 4) 5 2 4 3 "dynamic" "plain" "capsule" 3
        [] [] [] []).isSome = true := by decide

/-- Claim C2, amended: under a capsule classifier with `in_length` not
dividing `hidden_size`, construction SUCCEEDS (the capsule count is
silently floored to `hidden_size // in_length`) and every forward pass
then fails at the `view(batch, -1, in_length)` reshape. -/
theorem c2_nondivisible_defers_to_forward (cpow : ℕ → ℕ → ℕ)
    (vocab es nb : ℕ) (cw : Option ℕ) (hs il ol nc ni : ℕ)
    (rt et ct : String) (code codebook : T3) (table linW : Mat)
    (hct : ct = "capsule") (hrt : rt = "k_means" ∨ rt = "dynamic")
    (hil : il ≠ 0) (hh : hs ≠ 0)
    (bet : et ≠ "cwc" ∧ et ≠ "cc")
    (hnd : ¬ il ∣ hs) :
    Model.init cpow vocab es nb cw hs il ol nc rt et ct ni code codebook table linW =
      some ⟨hs, il, ol, nc, ct, Emb.plain table, Classifier.capsule rt (hs / il) ni⟩ ∧
    ∀ sq e G gru capsFwd x,
      Model.forward sq e G gru capsFwd
        ⟨hs, il, ol, nc, ct, Emb.plain table, Classifier.capsule rt (hs / il) ni⟩ x =
        none := by
  constructor
  · have hemb : Model.chooseEmb cpow vocab es nb cw et code codebook table =
        some (Emb.plain table) := by
      unfold Model.chooseEmb
      rw [if_neg]
      simp [bet.1, bet.2]
    have hcls : Model.chooseCls hs il ni rt ct linW =
        some (Classifier.capsule rt (hs / il) ni) := by
      unfold Model.chooseCls
      rcases hrt with h | h
      · subst h
        rw [if_pos ⟨hct, rfl⟩, if_neg hil]
      · subst h
        rw [if_neg (by simp), if_pos ⟨hct, rfl⟩, if_neg hil]
    unfold Model.init
    rw [hemb]
    simp [hh, hcls]
  · intro sq e G gru capsFwd x
    unfold Model.forward
    rcases Emb.fwd e G (Emb.plain table) x with _ | embed
    · rfl
    · simp [hct, hnd]

theorem c2_nondivisible_witness :
    (¬ (2 ∣ 5)) ∧
    Model.init (fun _ _ => 1) 10 8 2 (some 4) 5 2 4 3 "dynamic" "plain" "capsule" 3
        [] [] [] [] =
      some ⟨5, 2, 4, 3, "capsule", Emb.plain [], Classifier.capsule "dynamic" 2 3⟩ :=
  ⟨by decide,
    (c2_nondivisible_defers_to_forward (fun _ _ => 1) 10 8 2 (some 4) 5 2 4 3 3
      "dynamic" "plain" "capsule" [] [] [] [] rfl (Or.inr rfl) (by decide) (by decide)
      ⟨by decide, by decide⟩ (by decide)).1⟩

-- Helper lemmas for the shape theorems.

theorem getD_map_of_lt {α β : Type} (f : α → β) (l : List α) (t : ℕ) (d : α) (db : β)
    (h : t < l.length) : (l.map f).getD t db = f (l.getD t d) := by
  rw [List.getD_eq_getElem _ _ (by simpa using h), List.getD_eq_getElem _ _ h,
    List.getElem_map]

theorem getD_map_range {β : Type} (f : ℕ → β) (k t : ℕ) (db : β) (h : t < k) :
    ((List.range k).map f).getD t db = f t := by
  rw [getD_map_of_lt f (List.range k) t 0 db (by simpa using h)]
  congr 1
  rw [List.getD_eq_getElem _ _ (by simpa using h), List.getElem_range]

theorem viewBatch_shape (batch d L : ℕ) (flat : List Vec)
    (hb : batch ≠ 0) (hd : d ≠ 0) (hlen : flat.length = batch * L)
    (hel : ∀ v ∈ flat, List.length v = d) :
    ∃ out, viewBatch batch d flat = some out ∧ out.length = batch ∧
      ∀ r ∈ out, List.length r = L ∧ ∀ v ∈ r, List.length v = d := by
  have hdvd : batch ∣ flat.length := by rw [hlen]; exact dvd_mul_right batch L
  have hcols : flat.length / batch = L := by
    rw [hlen]
    exact Nat.mul_div_cancel_left L (Nat.pos_of_ne_zero hb)
  refine ⟨reshape2 batch (flat.length / batch) flat, ?_, reshape2_length _ _ _, ?_⟩
  · unfold viewBatch
    rw [if_pos ⟨hb, hd, hdvd⟩]
  · intro r hr
    constructor
    · rw [reshape2_mem_length batch (flat.length / batch) flat r hr, hcols]
    · intro v hv
      have hle : batch * (flat.length / batch) ≤ flat.length := by
        rw [hcols, hlen]
      exact hel v (reshape2_mem_mem_of_le _ _ _ hle r hr v hv)

theorem gumbelSample_length (e : ℚ → ℚ) (G : ℕ → ℕ → ℕ → ℕ → ℚ) (i t b : ℕ)
    (logits : Vec) : (gumbelSample e G i t b logits).length = logits.length := by
  simp [gumbelSample, softmaxList, List.enum_length]

/-- Claim C3 counterexample.  The claim quantifies over ALL values of
num_codebooks and num_codewords in both modes; but an unweighted embedding
with `num_codeword = 0` (well-formed: every code row is empty, the single
codebook has no codeword rows) raises at forward time (`argmax` over an
empty reduction dimension), so no tensor of shape (batch, seq_len,
embedding_dim) is returned. -/
theorem c3_counterexample :
    (⟨1, 1, 1, 0, false, [[[]]], [[]]⟩ : CompositionalEmbedding).wf ∧
    CompositionalEmbedding.forward (fun _ => 1) (fun _ _ _ _ => 0)
      ⟨1, 1, 1, 0, false, [[[]]], [[]]⟩ [[0]] 10 = none := by
  constructor
  · decide
  · decide

/-- Claim C3, amended: for every well-formed compositional embedding and
batch of equal-length rows of in-range token ids, `forward` returns a
tensor of shape (batch, seq_len, embedding_dim) — with no restriction on
`num_codebook`/`num_codeword` in weighted mode, and for positive
`num_codebook`, `num_codeword` and iteration count in unweighted mode. -/
theorem c3_forward_shape (e : ℚ → ℚ) (G : ℕ → ℕ → ℕ → ℕ → ℚ)
    (m : CompositionalEmbedding) (input : List (List ℕ)) (n L : ℕ)
    (hwf : m.wf)
    (hrow : ∀ r ∈ input, List.length r = L)
    (hbatch : input.length ≠ 0)
    (hD : m.embedding_dim ≠ 0)
    (htok : ∀ t ∈ input.flatten, t < m.num_embeddings)
    (hmode : m.weighted = true ∨ (n ≠ 0 ∧ m.num_codebook ≠ 0 ∧ m.num_codeword ≠ 0)) :
    ∃ out, CompositionalEmbedding.forward e G m input n = some out ∧
      out.length = input.length ∧
      ∀ r ∈ out, List.length r = L ∧ ∀ v ∈ r, List.length v = m.embedding_dim := by
  obtain ⟨hcodeLen, hcode, hbookLen, hbook⟩ := hwf
  have hlenIdx : input.flatten.length = input.length * L :=
    flatten_length_const input L hrow
  unfold CompositionalEmbedding.forward
  simp only []
  rw [if_neg (not_not_intro htok)]
  by_cases hwb : m.weighted = true
  · rw [if_pos hwb]
    apply viewBatch_shape
    · exact hbatch
    · exact hD
    · simp only [List.length_map]
      exact hlenIdx
    · intro v hv
      simp only [List.map_map, List.mem_map] at hv
      obtain ⟨t, _, rfl⟩ := hv
      apply bmmSum_length
      intro bm hbm row hrow2
      exact (hbook bm hbm).2 row hrow2
  · rcases hmode with h | ⟨hn, hB, hW⟩
    · exact absurd h hwb
    rw [if_neg hwb, if_neg (by simp [hn, hB, hW])]
    apply viewBatch_shape
    · exact hbatch
    · exact hD
    · simp only [List.length_map, List.length_range]
      exact hlenIdx
    · intro v hv
      simp only [List.mem_map, List.mem_range] at hv
      obtain ⟨t, ht, rfl⟩ := hv
      apply vsum_length
      intro u hu
      simp only [List.mem_map, List.mem_range] at hu
      obtain ⟨b, hb, rfl⟩ := hu
      have hbB : b < m.codebook.length := by rw [hbookLen]; exact hb
      have hbm := hbook _ (getD_mem m.codebook b [] hbB)
      apply hbm.2
      apply getD_mem
      rw [hbm.1]
      have ht2 : t < input.flatten.length := ht
      simp only [getD_map_range _ input.flatten.length t [] ht2]
      simp only [getD_map_of_lt (fun tok => m.code.getD tok ([] : Mat))
        input.flatten t 0 [] ht2]
      have htokV : input.flatten.getD t 0 < m.num_embeddings :=
        htok _ (getD_mem input.flatten t 0 ht2)
      have hmat := hcode (m.code.getD (input.flatten.getD t 0) [])
        (getD_mem m.code _ [] (by rw [hcodeLen]; exact htokV))
      have hbenum : b < (m.code.getD (input.flatten.getD t 0) []).enum.length := by
        rw [List.enum_length, hmat.1]; exact hb
      simp only [getD_map_of_lt _ (m.code.getD (input.flatten.getD t 0) []).enum
        b (0, ([] : Vec)) 0 hbenum]
      have hmatb : b < (m.code.getD (input.flatten.getD t 0) []).length := by
        rw [hmat.1]; exact hb
      have henum : (m.code.getD (input.flatten.getD t 0) []).enum.getD b (0, ([] : Vec)) =
          (b, (m.code.getD (input.flatten.getD t 0) []).getD b []) := by
        rw [List.getD_eq_getElem _ _ hbenum, List.getD_eq_getElem _ _ hmatb]
        simp
      rw [henum]
      have hrowW : ((m.code.getD (input.flatten.getD t 0) []).getD b []).length =
          m.num_codeword :=
        hmat.2 _ (getD_mem _ b [] hmatb)
      have hsamplen : ∀ s ∈ (List.range n).map (fun i =>
          gumbelSample e G i t b ((m.code.getD (input.flatten.getD t 0) []).getD b [])),
          List.length s = m.num_codeword := by
        intro s hs
        simp only [List.mem_map, List.mem_range] at hs
        obtain ⟨i, _, rfl⟩ := hs
        rw [gumbelSample_length]
        exact hrowW
      have hvlen := vsum_length _ m.num_codeword hsamplen
      have hne : vsum ((List.range n).map (fun i =>
          gumbelSample e G i t b ((m.code.getD (input.flatten.getD t 0) []).getD b [])))
          m.num_codeword ≠ [] := by
        intro hnil
        rw [hnil] at hvlen
        simp at hvlen
        exact hW hvlen.symm
      have hfin := listArgmax_lt _ hne
      rw [hvlen] at hfin
      exact hfin

theorem c3_forward_shape_witness :
    (CompositionalEmbedding.forward (fun _ => 1) (fun _ _ _ _ => 0)
      ⟨2, 1, 1, 2, true, [[[1, 2]], [[3, 4]]], [[[5], [6]]]⟩ [[0, 1]] 10).isSome = true := by
  obtain ⟨out, h1, _⟩ := c3_forward_shape (fun _ => 1) (fun _ _ _ _ => 0)
    ⟨2, 1, 1, 2, true, [[[1, 2]], [[3, 4]]], [[[5], [6]]]⟩ [[0, 1]] 10 2
    (by decide) (by decide) (by decide) (by decide) (by decide) (Or.inl rfl)
  rw [h1]
  rfl

/-- Modelled from the spec words, for comparison with the source: the
unweighted path as the spec describes it — draw `iteration` relaxed
samples, AVERAGE them (divide the accumulated sum by the iteration count),
take the argmax per codebook, gather the chosen codeword of each codebook
and sum across codebooks, then reshape.  It differs from
`CompositionalEmbedding.forward` only in the division by the iteration
count before the argmax. -/
def specUnweightedForward (e : ℚ → ℚ) (G : ℕ → ℕ → ℕ → ℕ → ℚ)
    (m : CompositionalEmbedding) (input : List (List ℕ)) (iteration : ℕ) : Option T3 :=
  let batch_size := input.length
  let index := input.flatten
  if ¬ (∀ t ∈ index, t < m.num_embeddings) then none
  else
    let code := index.map (fun t => m.code.getD t [])
    if iteration = 0 ∨ m.num_codebook = 0 ∨ m.num_codeword = 0 then none
    else
      let chosen := (List.range index.length).map (fun t =>
        ((code.getD t []).enum).map (fun p =>
          listArgmax (vscale (1 / (iteration : ℚ))
            (vsum ((List.range iteration).map
              (fun i => gumbelSample e G i t p.1 p.2)) m.num_codeword))))
      viewBatch batch_size m.embedding_dim
        ((List.range index.length).map (fun t =>
          vsum ((List.range m.num_codebook).map (fun b =>
            (m.codebook.getD b []).getD ((chosen.getD t []).getD b 0) []))
            m.embedding_dim))

/-- Claim C4: in unweighted mode the source draws `iteration` stochastic
relaxed-categorical (gumbel-softmax) samples of the token codeword
weights, accumulates them and argmaxes per codebook, then sums the
gathered codeword of each codebook.  Because the argmax is invariant under
division by the (positive) sample count, this coincides exactly with the
spec description: average the samples and take the per-codebook argmax. -/
theorem c4_unweighted_matches_avg_argmax (e : ℚ → ℚ) (G : ℕ → ℕ → ℕ → ℕ → ℚ)
    (m : CompositionalEmbedding) (input : List (List ℕ)) (n : ℕ)
    (hw : m.weighted = false) (hn : n ≠ 0) :
    CompositionalEmbedding.forward e G m input n =
    specUnweightedForward e G m input n := by
  have hnq : (0 : ℚ) < (n : ℚ) := by exact_mod_cast Nat.pos_of_ne_zero hn
  have hpos : 0 < 1 / (n : ℚ) := by positivity
  unfold CompositionalEmbedding.forward specUnweightedForward
  rw [hw]
  simp only [Bool.false_eq_true, if_false, listArgmax_vscale _ hpos]

theorem c4_unweighted_matches_witness :
    CompositionalEmbedding.forward (fun _ => 1) (fun i _ _ w => i + w)
      ⟨2, 1, 1, 2, false, [[[1, 2]], [[3, 4]]], [[[5], [6]]]⟩ [[0, 1]] 3 =
    specUnweightedForward (fun _ => 1) (fun i _ _ w => i + w)
      ⟨2, 1, 1, 2, false, [[[1, 2]], [[3, 4]]], [[[5], [6]]]⟩ [[0, 1]] 3 :=
  c4_unweighted_matches_avg_argmax (fun _ => 1) (fun i _ _ w => i + w)
    ⟨2, 1, 1, 2, false, [[[1, 2]], [[3, 4]]], [[[5], [6]]]⟩ [[0, 1]] 3 rfl (by decide)

-- Shared helpers for the Model.forward theorems.

theorem foldBi_row_length (H : ℕ) (s : Mat) (h : ∀ row ∈ s, List.length row = 2 * H) :
    ∀ r ∈ foldBi H s, List.length r = H := by
  intro r hr
  simp only [foldBi, List.mem_map] at hr
  obtain ⟨row, hrow2, rfl⟩ := hr
  have h2 : List.length row = 2 * H := h row hrow2
  rw [vadd_length, List.length_take, List.length_drop, h2]
  omega

theorem pool_row_length (H : ℕ) (gruOut : T3)
    (hseq : ∀ s ∈ gruOut, ∀ row ∈ s, List.length row = 2 * H) :
    ∀ v ∈ Model.pool H gruOut, List.length v = H := by
  intro v hv
  simp only [Model.pool, List.mem_map] at hv
  obtain ⟨s, hsmem, rfl⟩ := hv
  unfold meanPool
  rw [vscale_length]
  exact vsum_length _ _ (foldBi_row_length H s (hseq s hsmem))

/-- Claim C5: `Model.forward` folds the bidirectional GRU output by
summing the forward half and the backward half elementwise (widths H and
H, not a 2H concatenation), then mean-pools over the time dimension: the
pooled vector of example `b` has width `hidden_size` and its entry `i` is
the mean over time of `out[b][t][i] + out[b][t][H+i]`.  `Model.pool` is
the stage of `Model.forward` computing exactly lines 112-113. -/
theorem c5_fold_and_mean_pool (H T : ℕ) (gruOut : T3)
    (_hT : T ≠ 0)
    (hseq : ∀ s ∈ gruOut, List.length s = T ∧ ∀ row ∈ s, List.length row = 2 * H) :
    (Model.pool H gruOut).length = gruOut.length ∧
    ∀ b, b < gruOut.length →
      List.length ((Model.pool H gruOut).getD b []) = H ∧
      ∀ i, i < H →
        ((Model.pool H gruOut).getD b []).getD i 0 =
          (1 / (T : ℚ)) *
            ((gruOut.getD b []).map (fun row => row.getD i 0 + row.getD (H + i) 0)).sum := by
  constructor
  · simp [Model.pool]
  · intro b hb
    have hpb : (Model.pool H gruOut).getD b [] =
        meanPool H (foldBi H (gruOut.getD b [])) :=
      getD_map_of_lt (fun s => meanPool H (foldBi H s)) gruOut b [] [] hb
    have hsmem := hseq _ (getD_mem gruOut b [] hb)
    have hfold := foldBi_row_length H (gruOut.getD b []) hsmem.2
    have hfoldlen : (foldBi H (gruOut.getD b [])).length = T := by
      simp only [foldBi, List.length_map]
      exact hsmem.1
    constructor
    · rw [hpb]
      unfold meanPool
      rw [vscale_length]
      exact vsum_length _ _ hfold
    · intro i hi
      rw [hpb]
      unfold meanPool
      rw [getD_vscale, getD_vsum _ H i hi hfold, hfoldlen]
      congr 1
      simp only [foldBi, List.map_map]
      congr 1
      apply List.map_congr_left
      intro row hrow2
      have h2 : List.length row = 2 * H := hsmem.2 row hrow2
      simp only [Function.comp]
      rw [getD_vadd _ _ _ (by rw [List.length_take]; omega) (by rw [List.length_drop]; omega)]
      congr 1
      · rw [List.getD_eq_getElem _ _ (by rw [List.length_take]; omega),
          List.getD_eq_getElem _ _ (by omega : i < row.length)]
        exact List.getElem_take row
      · rw [List.getD_eq_getElem _ _ (by rw [List.length_drop]; omega),
          List.getD_eq_getElem _ _ (by omega : H + i < row.length)]
        exact List.getElem_drop row

theorem c5_fold_and_mean_pool_witness :
    ((Model.pool 1 [[[1, 2]]]).getD 0 []).getD 0 0 =
      (1 / ((1 : ℕ) : ℚ)) *
        ((([[[1, 2]]] : T3).getD 0 []).map
          (fun row => row.getD 0 0 + row.getD (1 + 0) 0)).sum :=
  ((c5_fold_and_mean_pool 1 1 [[[1, 2]]] (by decide)
    (by decide)).2 0 (by decide)).2 0 (by decide)

/-- Claim C6: for a batch of token sequences, `Model.forward` returns
class scores of shape (batch, num_class).  With a capsule classifier the
score of class `c` is `sq` (the square root) of the sum of squares of that
output capsule pose — i.e. the Euclidean norm of the pose vector returned
by the external `CapsuleLinear`; with a linear classifier the score is the
linear logit `dot(weight[c], pooled)`. -/
theorem c6_forward_class_scores (sq e : ℚ → ℚ) (G : ℕ → ℕ → ℕ → ℕ → ℚ)
    (gru : T3 → T3) (capsFwd : Mat → Mat) (M : Model) (x : List (List ℕ))
    (embed : T3) (T : ℕ)
    (hembed : Emb.fwd e G M.embedding x = some embed)
    (hseq : ∀ s ∈ gru embed, List.length s = T ∧
      ∀ row ∈ s, List.length row = 2 * M.hidden_size)
    (hglen : (gru embed).length = x.length)
    (hx : x.length ≠ 0)
    (hcaps : ∀ cm, (capsFwd cm).length = M.num_class ∧
      ∀ p ∈ capsFwd cm, List.length p = M.out_length) :
    (∀ rt ic ni, M.classifier_type = "capsule" →
      M.classifier = Classifier.capsule rt ic ni →
      M.in_length ≠ 0 → M.in_length ∣ M.hidden_size →
      Model.forward sq e G gru capsFwd M x =
        some ((Model.pool M.hidden_size (gru embed)).map (fun v =>
          (capsFwd (chunkVec M.in_length v)).map (fun p => sq (sumSq p)))) ∧
      ((Model.pool M.hidden_size (gru embed)).map (fun v =>
          (capsFwd (chunkVec M.in_length v)).map (fun p => sq (sumSq p)))).length =
        x.length ∧
      ∀ r ∈ (Model.pool M.hidden_size (gru embed)).map (fun v =>
          (capsFwd (chunkVec M.in_length v)).map (fun p => sq (sumSq p))),
        List.length r = M.num_class) ∧
    (∀ w, M.classifier_type ≠ "capsule" →
      M.classifier = Classifier.linear M.hidden_size w →
      Model.forward sq e G gru capsFwd M x =
        some ((Model.pool M.hidden_size (gru embed)).map (fun v =>
          w.map (fun wr => dot wr v))) ∧
      ((Model.pool M.hidden_size (gru embed)).map (fun v =>
          w.map (fun wr => dot wr v))).length = x.length ∧
      (List.length w = M.num_class →
        ∀ r ∈ (Model.pool M.hidden_size (gru embed)).map (fun v =>
          w.map (fun wr => dot wr v)), List.length r = M.num_class)) := by
  have hplen : (Model.pool M.hidden_size (gru embed)).length = x.length := by
    simp only [Model.pool, List.length_map]
    exact hglen
  have hpne : (Model.pool M.hidden_size (gru embed)).length ≠ 0 := by
    rw [hplen]; exact hx
  constructor
  · intro rt ic ni hct hcls hil hdvd
    refine ⟨?_, ?_, ?_⟩
    · unfold Model.forward
      rw [hembed, Option.some_bind']
      rw [if_pos hct, if_pos ⟨hil, hdvd, hpne⟩, hcls]
    · rw [List.length_map]
      exact hplen
    · intro r hr
      simp only [List.mem_map] at hr
      obtain ⟨v, _, rfl⟩ := hr
      rw [List.length_map]
      exact (hcaps _).1
  · intro w hct hcls
    have hpool : ∀ v ∈ Model.pool M.hidden_size (gru embed),
        List.length v = M.hidden_size :=
      pool_row_length M.hidden_size (gru embed) (fun s hs => (hseq s hs).2)
    refine ⟨?_, ?_, ?_⟩
    · unfold Model.forward
      rw [hembed, Option.some_bind']
      rw [if_neg hct, if_pos hpne, hcls]
      exact if_pos hpool
    · rw [List.length_map]
      exact hplen
    · intro hw r hr
      simp only [List.mem_map] at hr
      obtain ⟨v, _, rfl⟩ := hr
      rw [List.length_map]
      exact hw

theorem c6_forward_class_scores_witness :
    (Model.forward (fun q => q) (fun _ => 1) (fun _ _ _ _ => 0)
      (fun _ => [[[1, 2, 3, 4]]]) (fun _ => [[1], [2]])
      ⟨2, 1, 1, 2, "capsule", Emb.plain [[1], [2]], Classifier.capsule "dynamic" 2 3⟩
      [[0]]).isSome = true := by
  have h := (c6_forward_class_scores (fun q => q) (fun _ => 1) (fun _ _ _ _ => 0)
    (fun _ => [[[1, 2, 3, 4]]]) (fun _ => [[1], [2]])
    ⟨2, 1, 1, 2, "capsule", Emb.plain [[1], [2]], Classifier.capsule "dynamic" 2 3⟩
    [[0]] [[[1]]] 1
    (by decide)
    (by decide)
    (by decide) (by decide)
    (fun cm => ⟨rfl, by
      intro p hp
      have hp2 : p ∈ ([[1], [2]] : Mat) := hp
      fin_cases hp2 <;> rfl⟩)).1
    "dynamic" 2 3 rfl rfl (by decide) (by decide)
  rw [h.1]
  rfl
